import Mathlib

/-!
Shallow embedding of `src/update_etf_holdings.py` (Amplify ETF holdings
categoriser and sorter).

The two pure helpers `categorize_holding` and `extract_month_year` are
translated directly from the Python source.  `sort_holdings` is a pandas
pipeline (lines 98-139): iterate the rows collecting per-row sort keys
tagged with the row's index label, attach a fresh positional counter
`_sort_idx` to a copy of the table, left-merge the keys against that
counter, sort by `(cat_priority, year, month)` ascending, and drop the
temporary columns.  We model a dataframe as a list of (index label, row)
pairs; `DataFrame.sort_values` on several columns is a stable
lexicographic sort with missing keys placed last (`na_position='last'`),
modelled as a stable insertion sort over `Option` keys.  Priorities are
rationals (the source uses the float constants 3.5 and 3.6, exact or
order-isomorphic to their rational values on the constant set in use).

Python's `re.search` for the pattern
`(jan|feb|...|dec)[a-z]*[\s\-]?(\d{2,4})` is modelled as a leftmost
search with the regex's backtracking semantics: since `[a-z]*` is
followed by a character class that excludes letters, only the maximal
letter run can succeed, and the optional separator, if present but not
followed by at least two digits, cannot be skipped (the separator
character itself is not a digit); the greedy `\d{2,4}` takes up to four
characters of the following digit run.  Character classes are the ASCII
ones.
-/

namespace ETF

/-- A holding row: the two name columns `sort_holdings` may read
(`SecurityName`, falling back to `Name`, lines 110), both possibly
absent, plus an abstract payload standing for every remaining column
(ticker, CUSIP, lots, price, market value, weightings). -/
structure Row where
  securityName : Option String := none
  name : Option String := none
  payload : Nat := 0
  deriving DecidableEq, Repr

/-- A dataframe: rows tagged with their pandas index labels (a table
filtered out of a larger one keeps the original labels, so labels need
not be `0..n-1`). -/
abbrev Table := List (Nat × Row)

/-- Lowercasing as in Python's `name.lower()` (ASCII range). -/
def lowerData (s : String) : List Char := s.data.map Char.toLower

/-- Prefix test on character lists. -/
def prefixOfB : List Char → List Char → Bool
  | [], _ => true
  | _ :: _, [] => false
  | a :: as, b :: bs => a == b && prefixOfB as bs

/-- Occurrence of `needle` anywhere in `hay`. -/
def infixOfB (needle : List Char) : List Char → Bool
  | [] => needle.isEmpty
  | c :: cs => prefixOfB needle (c :: cs) || infixOfB needle cs

/-- Python's substring test `needle in hay` on an already lowercased
name. -/
def containsSub (hay : List Char) (needle : String) : Bool :=
  infixOfB needle.data hay

/-- The value 3.5 as a rational (written via the raw constructor so the
kernel can evaluate comparisons). -/
def threePointFive : ℚ := ⟨7, 2, by decide, by decide⟩

/-- The value 3.6 as a rational. -/
def threePointSix : ℚ := ⟨18, 5, by decide, by decide⟩

/-- `CATEGORY_ORDER` dict, lines 22-31 (lower number = higher
priority). -/
def CATEGORY_ORDER : List (String × ℚ) :=
  [("capesize", 1), ("panamax", 2), ("supramax", 3), ("td3c", threePointFive),
   ("td20", threePointSix), ("cash", 4), ("invesco", 5), ("other", 99)]

/-- Dict access `CATEGORY_ORDER[c]`; every access in the source uses a
present key, so the default is never hit. -/
def catOrd (c : String) : ℚ := ((CATEGORY_ORDER.lookup c).getD 0)

/-- `MONTH_MAP`, lines 34-37. -/
def MONTH_MAP : List (String × Nat) :=
  [("jan", 1), ("feb", 2), ("mar", 3), ("apr", 4), ("may", 5), ("jun", 6),
   ("jul", 7), ("aug", 8), ("sep", 9), ("oct", 10), ("nov", 11), ("dec", 12)]

/-- `categorize_holding`, lines 39-68.  In the source the BWET branch
always returns, so the dry-bulk chain below it is reached exactly when
the code is not `'BWET'`. -/
def categorize_holding (name etf_code : String) : String × ℚ :=
  let nl := lowerData name
  if etf_code = "BWET" then
    if containsSub nl "td3c" || containsSub nl "middle east gulf to china" then
      ("td3c", catOrd "td3c")
    else if containsSub nl "td20" || containsSub nl "west africa to continent" then
      ("td20", catOrd "td20")
    else if containsSub nl "cash" then ("cash", catOrd "cash")
    else if containsSub nl "invesco" then ("invesco", catOrd "invesco")
    else ("other", catOrd "other")
  else
    if containsSub nl "capesize" then ("capesize", catOrd "capesize")
    else if containsSub nl "panamax" then ("panamax", catOrd "panamax")
    else if containsSub nl "supramax" then ("supramax", catOrd "supramax")
    else if containsSub nl "cash" then ("cash", catOrd "cash")
    else if containsSub nl "invesco" then ("invesco", catOrd "invesco")
    else ("other", catOrd "other")

/-- ASCII `[a-z]`. -/
def lowerAlpha (c : Char) : Bool := 97 ≤ c.toNat && c.toNat ≤ 122

/-- ASCII `\d`. -/
def digitChar (c : Char) : Bool := 48 ≤ c.toNat && c.toNat ≤ 57

/-- The class `[\s\-]` (ASCII whitespace or hyphen). -/
def spaceHyphen (c : Char) : Bool :=
  c == ' ' || c == '\t' || c == '\n' || c == '\r' ||
  c == '\x0b' || c == '\x0c' || c == '-'

/-- The optional separator `[\s\-]?`: consume one separator character
when present (greedy; skipping it instead can never rescue the match,
because the digit class rejects the separator character itself). -/
def sepSkip : List Char → List Char
  | [] => []
  | c :: cs => if spaceHyphen c then cs else c :: cs

/-- Tail of the regex after a month alternative matched:
`[a-z]*[\s\-]?(\d{2,4})`, returning the digits captured by group 2. -/
def matchTail (rest : List Char) : Option (List Char) :=
  let ds := ((sepSkip (rest.dropWhile lowerAlpha)).takeWhile digitChar).take 4
  if 2 ≤ ds.length then some ds else none

/-- Try the twelve month alternatives, in the pattern's order, at a
fixed start position. -/
def tryMonths : List (String × Nat) → List Char → Option (Nat × List Char)
  | [], _ => none
  | (ab, num) :: rest, s =>
    if prefixOfB ab.data s then
      match matchTail (s.drop ab.data.length) with
      | some ds => some (num, ds)
      | none => tryMonths rest s
    else tryMonths rest s

/-- `re.search`: leftmost start position wins. -/
def searchFrom : List Char → Option (Nat × List Char)
  | [] => none
  | c :: cs =>
    match tryMonths MONTH_MAP (c :: cs) with
    | some r => some r
    | none => searchFrom cs

/-- `int(year_str)` on the captured digit characters. -/
def digitsToNat (ds : List Char) : Nat :=
  ds.foldl (fun a c => 10 * a + (c.toNat - 48)) 0

/-- `extract_month_year`, lines 70-96.  The month number comes with the
matched alternative (the source's `MONTH_MAP.get(month_abbr, 99)` always
finds its key); two-digit years get 2000 added, otherwise the digits are
taken as written; no match yields the sentinel `(99, 9999)`. -/
def extract_month_year (name : String) : Nat × Nat :=
  match searchFrom (lowerData name) with
  | some (m, ds) =>
    (m, if ds.length = 2 then 2000 + digitsToNat ds else digitsToNat ds)
  | none => (99, 9999)

/-- Sort key tuple `(cat_priority, year, month)` (the `sort_values`
column order of line 132). -/
abbrev Key := ℚ × Nat × Nat

/-- `str(row.get('SecurityName', row.get('Name', '')))`, line 110. -/
def rowName (r : Row) : String :=
  match r.securityName with
  | some s => s
  | none =>
    match r.name with
    | some s => s
    | none => ""

/-- The sort key computed for one row inside the `iterrows` loop,
lines 109-120. -/
def rowKey (etf : String) (r : Row) : Key :=
  ((categorize_holding (rowName r) etf).2,
   (extract_month_year (rowName r)).2,
   (extract_month_year (rowName r)).1)

/-- The `sort_data` list built by the `iterrows` loop: each row's key
tagged with the row's index label (line 115 stores `idx`). -/
def entries (df : Table) (etf : String) : List (Nat × Key) :=
  df.map (fun p => (p.1, rowKey etf p.2))

/-- The `sort_df` entries whose `index` column equals `i` — what the
left merge of line 128 matches against `_sort_idx = i`. -/
def matchesAt (df : Table) (etf : String) (i : Nat) : List (Nat × Key) :=
  (entries df etf).filter (fun q => q.1 == i)

/-- The left merge of line 128: each left row carries the positional
counter `_sort_idx` (line 127); a left row joins every `sort_df` entry
whose `index` label equals its counter, in entry order, or survives
alone with missing key columns when nothing matches (`how='left'`). -/
def mergedAux (E : List (Nat × Key)) : Nat → List (Nat × Row) → List (Row × Option Key)
  | _, [] => []
  | i, p :: rest =>
    (let ms := E.filter (fun q => q.1 == i)
     if ms.isEmpty then [(p.2, (none : Option Key))]
     else ms.map (fun q => (p.2, some q.2))) ++ mergedAux E (i + 1) rest

/-- The merged frame of line 128 (original index labels are discarded by
the merge, which renumbers rows). -/
def mergedRows (df : Table) (etf : String) : List (Row × Option Key) :=
  mergedAux (entries df etf) 0 df

/-- Ascending comparison of key tuples, precedence
`cat_priority`, `year`, `month`. -/
def keyLeB (a b : Key) : Bool :=
  decide (a.1 < b.1) ||
    (decide (a.1 = b.1) &&
      (decide (a.2.1 < b.2.1) ||
        (decide (a.2.1 = b.2.1) && decide (a.2.2 ≤ b.2.2))))

/-- Missing keys (unmatched merge rows) sort last
(`na_position='last'`). -/
def optKeyLeB : Option Key → Option Key → Bool
  | _, none => true
  | none, some _ => false
  | some a, some b => keyLeB a b

/-- The sort relation on merged rows (compare only the key columns). -/
def rowLeR (x y : Row × Option Key) : Prop :=
  optKeyLeB x.2 y.2 = true

instance : DecidableRel rowLeR := fun x y => by
  unfold rowLeR; exact inferInstance

/-- `sort_holdings`, lines 98-139.  The empty table returns immediately
(line 104).  `DataFrame.sort_values` on several columns performs a
stable lexicographic sort (NumPy `lexsort`), modelled by the stable
`List.insertionSort`; dropping the temporary columns (line 137) is the
final projection to the row component. -/
def sort_holdings (df : Table) (etf : String) : List Row :=
  if df.isEmpty then []
  else (List.insertionSort rowLeR (mergedRows df etf)).map Prod.fst

/-! ### Spec-side definitions and concrete instances -/

/-- One categorisation rule: a predicate on the lowercased name and the
resulting (label, priority) pair. -/
abbrev Rule := (List Char → Bool) × String × ℚ

/-- Stated from the spec's matching policy (section 4.1): the ordered
rule list for the route fund — route codes or their long-form
descriptions, `td3c` before `td20`, before the cash and sponsor-name
keywords. -/
def bwetRules : List Rule :=
  [(fun nl => containsSub nl "td3c" || containsSub nl "middle east gulf to china",
    ("td3c", catOrd "td3c")),
   (fun nl => containsSub nl "td20" || containsSub nl "west africa to continent",
    ("td20", catOrd "td20")),
   (fun nl => containsSub nl "cash", ("cash", catOrd "cash")),
   (fun nl => containsSub nl "invesco", ("invesco", catOrd "invesco"))]

/-- Stated from the spec's matching policy: the ordered rule list for
the size-class fund — capesize, panamax, supramax, then the cash and
sponsor-name keywords. -/
def sizeClassRules : List Rule :=
  [(fun nl => containsSub nl "capesize", ("capesize", catOrd "capesize")),
   (fun nl => containsSub nl "panamax", ("panamax", catOrd "panamax")),
   (fun nl => containsSub nl "supramax", ("supramax", catOrd "supramax")),
   (fun nl => containsSub nl "cash", ("cash", catOrd "cash")),
   (fun nl => containsSub nl "invesco", ("invesco", catOrd "invesco"))]

/-- Fund to ordered rule list. -/
def specRules (etf : String) : List Rule :=
  if etf = "BWET" then bwetRules else sizeClassRules

/-- First matching rule wins; no match falls to the fallback
category. -/
def firstMatch : List Rule → List Char → String × ℚ
  | [], _ => ("other", catOrd "other")
  | r :: rest, nl => if r.1 nl then r.2 else firstMatch rest nl

/-- All keyword substrings a fund's categoriser tests. -/
def fundKeywords (etf : String) : List String :=
  if etf = "BWET" then
    ["td3c", "middle east gulf to china", "td20", "west africa to continent",
     "cash", "invesco"]
  else ["capesize", "panamax", "supramax", "cash", "invesco"]

/-- A caller's view of one invocation: the input table it still holds
after the call, and the returned table.  `sort_holdings` works on a copy
(`df.copy()`, line 126) and builds new frames from it, so the invocation
leaves the caller's table untouched. -/
structure CallState where
  input : Table
  output : Option (List Row) := none

/-- Perform the call. -/
def invoke (s : CallState) (etf : String) : CallState :=
  { input := s.input, output := some (sort_holdings s.input etf) }

/-- Concrete rows used in counterexamples and witnesses. -/
def rowA : Row := { securityName := some "Capesize Mar 26", payload := 1 }

def rowB : Row := { securityName := some "Capesize Mar 26", payload := 2 }

def rowC : Row := { securityName := some "Panamax Mar 26", payload := 3 }

/-- A table whose labels are a permutation of `0..2` but not in
positional order (as after filtering a master table). -/
def cexTable1 : Table := [(1, rowA), (2, rowB), (0, rowC)]

def rowP : Row := { securityName := some "Cash", payload := 1 }

def rowQ : Row := { securityName := some "Cash", payload := 2 }

/-- A table with a duplicated index label. -/
def cexTable2 : Table := [(0, rowP), (0, rowQ)]

/-- A row missing both name columns. -/
def nonameRow : Row := { securityName := none, name := none, payload := 7 }

def rowW : Row := { securityName := some "Cash", payload := 9 }

/-- A one-row table keeping a foreign label. -/
def cexTable9 : Table := [(5, rowW)]

/-! ### Sanity checks (spec section 8 examples) -/

example : extract_month_year "Capesize Mar 26" = (3, 2026) := by decide
example : extract_month_year "Panamax Feb 2027" = (2, 2027) := by decide
example : extract_month_year "Cash" = (99, 9999) := by decide
example : categorize_holding "Capesize Mar 26" "BDRY" = ("capesize", 1) := by decide
example : categorize_holding "TD3C Middle East Gulf to China" "BWET" = ("td3c", threePointFive) := by decide

example :
    sort_holdings
      [(0, { securityName := some "Cash" }),
       (1, { securityName := some "Capesize Jun 26" }),
       (2, { securityName := some "Panamax Mar 26" })] "BDRY" =
      [{ securityName := some "Capesize Jun 26" },
       { securityName := some "Panamax Mar 26" },
       { securityName := some "Cash" }] := by decide

/-! ### Helper lemmas -/

theorem keyLeB_refl (k : Key) : keyLeB k k = true := by
  simp [keyLeB]

theorem rowLeR_of_key_eq {x y : Row × Option Key} {k : Key}
    (hx : x.2 = some k) (hy : y.2 = some k) : rowLeR x y := by
  unfold rowLeR
  rw [hx, hy]
  simpa [optKeyLeB] using keyLeB_refl k

theorem filter_orderedInsert_pos {α : Type} (r : α → α → Prop) [DecidableRel r]
    (p : α → Bool) (hpr : ∀ a b, p a = true → p b = true → r a b)
    (a : α) (hpa : p a = true) :
    ∀ l : List α, (List.orderedInsert r a l).filter p = a :: l.filter p := by
  intro l
  induction l with
  | nil => simp [List.orderedInsert, hpa]
  | cons b t ih =>
    by_cases hr : r a b
    · simp [List.orderedInsert, hr, hpa]
    · have hpb : p b = false := by
        cases hb : p b with
        | false => rfl
        | true => exact absurd (hpr a b hpa hb) hr
      simp [List.orderedInsert, hr, hpb, ih]

theorem filter_orderedInsert_neg {α : Type} (r : α → α → Prop) [DecidableRel r]
    (p : α → Bool) (a : α) (hpa : p a = false) :
    ∀ l : List α, (List.orderedInsert r a l).filter p = l.filter p := by
  intro l
  induction l with
  | nil => simp [List.orderedInsert, hpa]
  | cons b t ih =>
    by_cases hr : r a b
    · simp [List.orderedInsert, hr, hpa]
    · simp [List.orderedInsert, hr, List.filter_cons, ih]

/-- A stable sort does not reorder the elements selected by a predicate
that relates all its members (here: equal sort keys). -/
theorem filter_insertionSort {α : Type} (r : α → α → Prop) [DecidableRel r]
    (p : α → Bool) (hpr : ∀ a b, p a = true → p b = true → r a b) :
    ∀ l : List α, (List.insertionSort r l).filter p = l.filter p := by
  intro l
  induction l with
  | nil => rfl
  | cons a t ih =>
    cases hpa : p a with
    | true =>
      rw [List.insertionSort, filter_orderedInsert_pos r p hpr a hpa, ih]
      simp [hpa]
    | false =>
      rw [List.insertionSort, filter_orderedInsert_neg r p a hpa, ih]
      simp [hpa]

theorem filter_fst_eq_of_nodup {β : Type} :
    ∀ {l : List (Nat × β)}, (l.map Prod.fst).Nodup →
      ∀ {x : Nat × β}, x ∈ l → l.filter (fun q => q.1 == x.1) = [x] := by
  intro l
  induction l with
  | nil => intro _ x hx; cases hx
  | cons a t ih =>
    intro h x hx
    rw [List.map_cons, List.nodup_cons] at h
    rcases List.mem_cons.mp hx with rfl | hxt
    · have ht : t.filter (fun q => q.1 == x.1) = [] := by
        rw [List.filter_eq_nil_iff]
        intro q hq hbeq
        exact h.1 (by
          have : q.1 = x.1 := by simpa using hbeq
          exact this ▸ List.mem_map_of_mem Prod.fst hq)
      simp [List.filter_cons, ht]
    · have hne : (a.1 == x.1) = false := by
        apply beq_false_of_ne
        intro heq
        exact h.1 (heq ▸ List.mem_map_of_mem Prod.fst hxt)
      simp [List.filter_cons, hne, ih h.2 hxt]

theorem length_filter_fst_le_one {β : Type} :
    ∀ {l : List (Nat × β)}, (l.map Prod.fst).Nodup →
      ∀ i : Nat, (l.filter (fun q => q.1 == i)).length ≤ 1 := by
  intro l
  induction l with
  | nil => intro _ i; simp
  | cons a t ih =>
    intro h i
    rw [List.map_cons, List.nodup_cons] at h
    by_cases ha : (a.1 == i) = true
    · have hi : a.1 = i := by simpa using ha
      have ht : t.filter (fun q => q.1 == i) = [] := by
        rw [List.filter_eq_nil_iff]
        intro q hq hbeq
        exact h.1 (by
          have hq1 : q.1 = i := by simpa using hbeq
          rw [hi, ← hq1]
          exact List.mem_map_of_mem Prod.fst hq)
      simp [List.filter_cons, ha, ht]
    · simp only [List.filter_cons, ha, if_false]
      exact ih h.2 i

theorem mergedAux_map_fst (E : List (Nat × Key))
    (h : ∀ j : Nat, (E.filter (fun q => q.1 == j)).length ≤ 1) :
    ∀ (i : Nat) (l : List (Nat × Row)),
      (mergedAux E i l).map Prod.fst = l.map Prod.snd := by
  intro i l
  induction l generalizing i with
  | nil => rfl
  | cons p t ih =>
    rw [mergedAux]
    by_cases he : (E.filter (fun q => q.1 == i)).isEmpty = true
    · simp [he, ih]
    · have hlen : (E.filter (fun q => q.1 == i)).length = 1 := by
        have h1 := h i
        have h0 : (E.filter (fun q => q.1 == i)).length ≠ 0 := by
          intro h0
          exact he (List.isEmpty_iff_length_eq_zero.mpr h0)
        omega
      obtain ⟨x, hx⟩ := List.length_eq_one.mp hlen
      simp [he, hx, ih]

theorem mergedAux_of_exact (etf : String) (E : List (Nat × Key)) :
    ∀ (i : Nat) (l : List (Nat × Row)),
      (∀ (k : Nat) (hk : k < l.length),
        E.filter (fun q => q.1 == i + k) =
          [(i + k, rowKey etf (l.get ⟨k, hk⟩).2)]) →
      mergedAux E i l = l.map (fun p => (p.2, some (rowKey etf p.2))) := by
  intro i l
  induction l generalizing i with
  | nil => intro _; rfl
  | cons p t ih =>
    intro h
    have h0 := h 0 (by simp)
    rw [Nat.add_zero] at h0
    have hrec : mergedAux E (i + 1) t = t.map (fun p => (p.2, some (rowKey etf p.2))) := by
      apply ih
      intro k hk
      have := h (k + 1) (by simpa using Nat.succ_lt_succ hk)
      rwa [show i + (k + 1) = i + 1 + k by omega] at this
    rw [mergedAux]
    simp only [List.get] at h0
    simp [h0, hrec]

theorem entries_map_fst (df : Table) (etf : String) :
    (entries df etf).map Prod.fst = df.map Prod.fst := by
  simp [entries, Function.comp]

/-- Under labels `0..n-1` in positional order, every row's own label is
its position. -/
theorem label_eq_of_range {df : Table}
    (h : df.map Prod.fst = List.range df.length)
    {k : Nat} (hk : k < df.length) : (df.get ⟨k, hk⟩).1 = k := by
  have hkm : k < (df.map Prod.fst).length := by simpa using hk
  have h1 : (df.map Prod.fst).get ⟨k, hkm⟩ = k := by
    have h2 : (df.map Prod.fst).get ⟨k, hkm⟩ =
        (List.range df.length).get ⟨k, by simpa using hk⟩ := by
      apply List.get_of_eq h
    rw [h2, List.get_range]
  rw [List.get_map] at h1
  exact h1

/-- When the index labels are exactly `0..n-1` in positional order, the
merge matches position `k` with exactly that row's own key. -/
theorem matchesAt_of_range (df : Table) (etf : String)
    (h : df.map Prod.fst = List.range df.length)
    {k : Nat} (hk : k < df.length) :
    matchesAt df etf k = [(k, rowKey etf (df.get ⟨k, hk⟩).2)] := by
  have hnodup : ((entries df etf).map Prod.fst).Nodup := by
    rw [entries_map_fst, h]; exact List.nodup_range _
  have hkE : k < (entries df etf).length := by simpa [entries] using hk
  have hmem : (entries df etf).get ⟨k, hkE⟩ ∈ entries df etf := List.get_mem _ _ _
  have hget : (entries df etf).get ⟨k, hkE⟩ =
      ((df.get ⟨k, hk⟩).1, rowKey etf (df.get ⟨k, hk⟩).2) := by
    simp [entries, List.get_map]
  have hlab : (df.get ⟨k, hk⟩).1 = k := label_eq_of_range h hk
  have hfe := filter_fst_eq_of_nodup hnodup hmem
  rw [hget] at hfe
  rw [hlab] at hfe
  unfold matchesAt
  rw [hfe]

/-- When the index labels are exactly `0..n-1` in positional order, the
merge matches every row with its own key. -/
theorem mergedRows_of_range (df : Table) (etf : String)
    (h : df.map Prod.fst = List.range df.length) :
    mergedRows df etf = df.map (fun p => (p.2, some (rowKey etf p.2))) := by
  apply mergedAux_of_exact
  intro k hk
  rw [Nat.zero_add]
  exact matchesAt_of_range df etf h hk

/-- With pairwise-distinct labels the left merge keeps exactly one
output row per input row, in input order. -/
theorem mergedRows_map_fst_of_nodup (df : Table) (etf : String)
    (h : (df.map Prod.fst).Nodup) :
    (mergedRows df etf).map Prod.fst = df.map Prod.snd := by
  apply mergedAux_map_fst
  intro j
  apply length_filter_fst_le_one
  rwa [entries_map_fst]

/-- The merge matches against position `i` exactly the keys of the rows
whose index label is `i`. -/
theorem matchesAt_eq (df : Table) (etf : String) (i : Nat) :
    matchesAt df etf i =
      (df.filter (fun p => p.1 == i)).map (fun p => (i, rowKey etf p.2)) := by
  unfold matchesAt entries
  rw [List.filter_map]
  apply List.map_congr_left
  intro p hp
  have hbeq : ((fun q => q.1 == i) ∘ fun p => (p.1, rowKey etf p.2)) p = true :=
    (List.mem_filter.mp hp).2
  have hpi : p.1 = i := by simpa using hbeq
  simp [hpi]

theorem mergedAux_fst_mem (E : List (Nat × Key)) :
    ∀ (i : Nat) (l : List (Nat × Row)) (x : Row × Option Key),
      x ∈ mergedAux E i l → x.1 ∈ l.map Prod.snd := by
  intro i l
  induction l generalizing i with
  | nil => intro x hx; cases hx
  | cons p t ih =>
    intro x hx
    rw [mergedAux] at hx
    rcases List.mem_append.mp hx with hb | hr
    · by_cases he : (E.filter (fun q => q.1 == i)).isEmpty = true
      · simp only [he, if_true] at hb
        rcases List.mem_singleton.mp hb with rfl
        simp
      · simp only [he, if_false] at hb
        obtain ⟨q, _, rfl⟩ := List.mem_map.mp hb
        simp
    · exact List.mem_cons_of_mem _ (ih (i + 1) x hr)

theorem digitChar_le {c : Char} (h : digitChar c = true) : c.toNat - 48 ≤ 9 := by
  have hb : 48 ≤ c.toNat ∧ c.toNat ≤ 57 := by simpa [digitChar] using h
  omega

theorem digitsToNat_aux :
    ∀ (ds : List Char) (a : Nat), (∀ c ∈ ds, digitChar c = true) →
      ds.foldl (fun a c => 10 * a + (c.toNat - 48)) a < 10 ^ ds.length * (a + 1) := by
  intro ds
  induction ds with
  | nil => intro a _; simpa using Nat.lt_succ_self a
  | cons c t ih =>
    intro a h
    have hd : c.toNat - 48 ≤ 9 := digitChar_le (h c (List.mem_cons_self c t))
    have ht := ih (10 * a + (c.toNat - 48)) (fun x hx => h x (List.mem_cons_of_mem c hx))
    calc (c :: t).foldl (fun a c => 10 * a + (c.toNat - 48)) a
        = t.foldl (fun a c => 10 * a + (c.toNat - 48)) (10 * a + (c.toNat - 48)) := rfl
      _ < 10 ^ t.length * (10 * a + (c.toNat - 48) + 1) := ht
      _ ≤ 10 ^ t.length * (10 * (a + 1)) := by
          apply Nat.mul_le_mul_left
          omega
      _ = 10 ^ (c :: t).length * (a + 1) := by
          simp [List.length_cons, Nat.pow_succ]
          ring

theorem digitsToNat_lt (ds : List Char) (h : ∀ c ∈ ds, digitChar c = true) :
    digitsToNat ds < 10 ^ ds.length := by
  simpa [digitsToNat] using digitsToNat_aux ds 0 h

theorem matchTail_spec {rest ds : List Char} (h : matchTail rest = some ds) :
    2 ≤ ds.length ∧ ds.length ≤ 4 ∧ ∀ c ∈ ds, digitChar c = true := by
  unfold matchTail at h
  simp only [] at h
  by_cases hlen :
      2 ≤ (((sepSkip (rest.dropWhile lowerAlpha)).takeWhile digitChar).take 4).length
  · rw [if_pos hlen] at h
    injection h with h
    subst h
    refine ⟨hlen, ?_, ?_⟩
    · exact le_trans (List.length_take_le 4 _) (le_refl 4)
    · intro c hc
      exact List.mem_takeWhile_imp (List.take_subset 4 _ hc)
  · rw [if_neg hlen] at h
    exact absurd h (by simp)

theorem tryMonths_spec :
    ∀ (ms : List (String × Nat)) (s : List Char) (m : Nat) (ds : List Char),
      tryMonths ms s = some (m, ds) →
        (∃ ab, (ab, m) ∈ ms) ∧ 2 ≤ ds.length ∧ ds.length ≤ 4 ∧
          ∀ c ∈ ds, digitChar c = true := by
  intro ms
  induction ms with
  | nil => intro s m ds h; exact absurd h (by simp [tryMonths])
  | cons p rest ih =>
    intro s m ds h
    obtain ⟨ab, num⟩ := p
    rw [tryMonths] at h
    split at h
    · cases hmt : matchTail (s.drop ab.data.length) with
      | some ds2 =>
        rw [hmt] at h
        injection h with h
        injection h with h1 h2
        subst h1
        subst h2
        exact ⟨⟨ab, List.mem_cons_self _ _⟩, matchTail_spec hmt⟩
      | none =>
        rw [hmt] at h
        obtain ⟨⟨ab2, hab⟩, hrest⟩ := ih s m ds h
        exact ⟨⟨ab2, List.mem_cons_of_mem _ hab⟩, hrest⟩
    · obtain ⟨⟨ab2, hab⟩, hrest⟩ := ih s m ds h
      exact ⟨⟨ab2, List.mem_cons_of_mem _ hab⟩, hrest⟩

theorem searchFrom_spec :
    ∀ (s : List Char) (m : Nat) (ds : List Char),
      searchFrom s = some (m, ds) →
        (∃ ab, (ab, m) ∈ MONTH_MAP) ∧ 2 ≤ ds.length ∧ ds.length ≤ 4 ∧
          ∀ c ∈ ds, digitChar c = true := by
  intro s
  induction s with
  | nil => intro m ds h; exact absurd h (by simp [searchFrom])
  | cons c cs ih =>
    intro m ds h
    rw [searchFrom] at h
    cases ht : tryMonths MONTH_MAP (c :: cs) with
    | some r =>
      rw [ht] at h
      injection h with h
      subst h
      exact tryMonths_spec _ _ _ _ ht
    | none =>
      rw [ht] at h
      exact ih m ds h

theorem month_num_bounds {ab : String} {m : Nat} (h : (ab, m) ∈ MONTH_MAP) :
    1 ≤ m ∧ m ≤ 12 := by
  have hm : m ∈ MONTH_MAP.map Prod.snd := List.mem_map_of_mem Prod.snd h
  simp [MONTH_MAP] at hm
  omega

theorem categorize_holding_empty (etf : String) :
    categorize_holding "" etf = ("other", 99) := by
  by_cases h : etf = "BWET"
  · subst h; decide
  · simp only [categorize_holding]
    rw [if_neg h]
    decide

theorem catOrd_other : catOrd "other" = 99 := by decide

theorem categorize_holding_no_keyword (name etf : String)
    (h : ∀ kw ∈ fundKeywords etf, containsSub (lowerData name) kw = false) :
    categorize_holding name etf = ("other", 99) := by
  by_cases hb : etf = "BWET"
  · subst hb
    have h1 := h "td3c" (by simp [fundKeywords])
    have h2 := h "middle east gulf to china" (by simp [fundKeywords])
    have h3 := h "td20" (by simp [fundKeywords])
    have h4 := h "west africa to continent" (by simp [fundKeywords])
    have h5 := h "cash" (by simp [fundKeywords])
    have h6 := h "invesco" (by simp [fundKeywords])
    simp [categorize_holding, h1, h2, h3, h4, h5, h6, catOrd_other]
  · have h1 := h "capesize" (by simp [fundKeywords, hb])
    have h2 := h "panamax" (by simp [fundKeywords, hb])
    have h3 := h "supramax" (by simp [fundKeywords, hb])
    have h4 := h "cash" (by simp [fundKeywords, hb])
    have h5 := h "invesco" (by simp [fundKeywords, hb])
    simp [categorize_holding, hb, h1, h2, h3, h4, h5, catOrd_other]

theorem sort_holdings_mem_sub {df : Table} {etf : String} {row : Row}
    (h : row ∈ sort_holdings df etf) : row ∈ df.map Prod.snd := by
  unfold sort_holdings at h
  by_cases he : df.isEmpty
  · rw [if_pos he] at h; cases h
  · rw [if_neg he] at h
    obtain ⟨x, hxS, rfl⟩ := List.mem_map.mp h
    have hxM : x ∈ mergedRows df etf :=
      (List.perm_insertionSort rowLeR (mergedRows df etf)).mem_iff.mp hxS
    exact mergedAux_fst_mem _ 0 df x hxM

theorem extract_month_year_bounds (name : String) :
    extract_month_year name = (99, 9999) ∨
      (1 ≤ (extract_month_year name).1 ∧ (extract_month_year name).1 ≤ 12 ∧
        (extract_month_year name).2 ≤ 9999) := by
  unfold extract_month_year
  cases hs : searchFrom (lowerData name) with
  | none => exact Or.inl rfl
  | some r =>
    obtain ⟨m, ds⟩ := r
    obtain ⟨⟨ab, hab⟩, h2, h4, hdig⟩ := searchFrom_spec _ _ _ hs
    obtain ⟨hm1, hm12⟩ := month_num_bounds hab
    refine Or.inr ⟨hm1, hm12, ?_⟩
    have hlt : digitsToNat ds < 10 ^ ds.length := digitsToNat_lt ds hdig
    by_cases hl2 : ds.length = 2
    · have : digitsToNat ds < 100 := by
        rw [hl2] at hlt; simpa using hlt
      simp only [hl2, if_true]
      omega
    · have hle : 10 ^ ds.length ≤ 10 ^ 4 := Nat.pow_le_pow_right (by omega) h4
      simp only [hl2, if_false]
      have : digitsToNat ds < 10000 := lt_of_lt_of_le hlt (by simpa using hle)
      omega

/-! ### Claim theorems -/

/-- C4: `categorize_holding` tests the fund's keyword substrings in a
fixed order and the first match wins: it equals the run of the spec's
ordered rule list (route codes or long-form descriptions, `td3c` before
`td20`, before cash and the sponsor name for BWET; capesize, panamax,
supramax before cash and the sponsor name otherwise), and a name
containing several keywords resolves to whichever is checked first. -/
theorem categorize_first_match_wins :
    (∀ name etf, categorize_holding name etf = firstMatch (specRules etf) (lowerData name)) ∧
    categorize_holding "TD3C and TD20 West Africa to Continent Cash" "BWET" =
      ("td3c", threePointFive) ∧
    categorize_holding "TD20 Cash Invesco" "BWET" = ("td20", threePointSix) ∧
    categorize_holding "Capesize Panamax Supramax Cash" "BDRY" = ("capesize", 1) ∧
    categorize_holding "Supramax Cash Invesco" "BDRY" = ("supramax", 3) := by
  refine ⟨?_, by decide, by decide, by decide, by decide⟩
  intro name etf
  by_cases h : etf = "BWET" <;>
    simp [categorize_holding, specRules, firstMatch, bwetRules, sizeClassRules, h]

/-- C10: for every fund code other than `'BWET'` — not only `'BDRY'` —
`categorize_holding` runs the dry-bulk size-class chain: the size-class
branch is the unguarded default. -/
theorem categorize_default_branch (name etf : String) (h : etf ≠ "BWET") :
    categorize_holding name etf = categorize_holding name "BDRY" := by
  simp only [categorize_holding]
  rw [if_neg h, if_neg (by decide : ¬("BDRY" : String) = "BWET")]

/-- C10 witness: an unknown fund code is categorised by the size-class
rules. -/
theorem categorize_default_branch_witness :
    categorize_holding "Capesize Mar 26" "ZZZZ" =
      categorize_holding "Capesize Mar 26" "BDRY" :=
  categorize_default_branch "Capesize Mar 26" "ZZZZ" (by decide)

/-- C6: `sort_holdings` is deterministic — the pipeline (row iteration,
merge, stable lexicographic sort) is modelled by a pure function, so two
invocations on the same table and fund code coincide. -/
theorem sort_holdings_deterministic (df : Table) (etf : String) :
    sort_holdings df etf = sort_holdings df etf := rfl

/-- C5: both helpers are total.  The categoriser returns a pair drawn
from `CATEGORY_ORDER` for every input including the empty string; a name
containing none of the fund's keywords falls to `("other", 99)`, and 99
is the largest (lowest-priority, sorts-last) value in `CATEGORY_ORDER`;
the extractor returns the sentinel on the empty string and, on every
input, either the sentinel or a real `(month 1-12, year ≤ 9999)` — a
missing match is a value, not an error. -/
theorem categorize_extract_total :
    (∀ etf, categorize_holding "" etf = ("other", 99)) ∧
    extract_month_year "" = (99, 9999) ∧
    (∀ name etf, (∀ kw ∈ fundKeywords etf, containsSub (lowerData name) kw = false) →
      categorize_holding name etf = ("other", 99)) ∧
    (∀ name etf, categorize_holding name etf ∈ CATEGORY_ORDER) ∧
    (∀ q ∈ CATEGORY_ORDER.map Prod.snd, q ≤ 99) ∧
    (∀ name, extract_month_year name = (99, 9999) ∨
      (1 ≤ (extract_month_year name).1 ∧ (extract_month_year name).1 ≤ 12 ∧
        (extract_month_year name).2 ≤ 9999)) := by
  refine ⟨categorize_holding_empty, by decide, categorize_holding_no_keyword, ?_, by decide,
    extract_month_year_bounds⟩
  intro name etf
  by_cases h : etf = "BWET"
  · subst h
    simp only [categorize_holding, if_pos rfl]
    split_ifs <;> decide
  · simp only [categorize_holding, if_neg h]
    split_ifs <;> decide

/-- C5 witness: a keyword-free name falls to the fallback category with
the lowest priority. -/
theorem categorize_extract_total_witness :
    categorize_holding "Baltic 99" "BDRY" = ("other", 99) :=
  categorize_extract_total.2.2.1 "Baltic 99" "BDRY" (by decide)

/-- C3 counterexample: the year group `\d{2,4}` also accepts three
digits taken as written, so a match can return a year that is not
4-digit ("Capesize Mar 123" yields year 123). -/
theorem extract_month_year_cex :
    extract_month_year "Capesize Mar 123" = (3, 123) ∧ 123 < 1000 := by
  exact ⟨by decide, by decide⟩

/-- C3 amended: when the pattern is found `extract_month_year` returns
`(month 1-12, year)` where two-digit years get 2000 added (so
"Capesize Mar 26" gives (3, 2026) and "Panamax Feb 2027" gives
(2, 2027)) and three- or four-digit year digits are taken as written
(so the year is ≤ 9999 but need not have four digits); "Cash" and every
other patternless name give the sentinel (99, 9999), which compares
after every returned real date under (year, month) ordering. -/
theorem extract_month_year_amended :
    extract_month_year "Capesize Mar 26" = (3, 2026) ∧
    extract_month_year "Panamax Feb 2027" = (2, 2027) ∧
    extract_month_year "Cash" = (99, 9999) ∧
    (∀ name, extract_month_year name = (99, 9999) ∨
      (1 ≤ (extract_month_year name).1 ∧ (extract_month_year name).1 ≤ 12 ∧
        (extract_month_year name).2 ≤ 9999)) ∧
    (∀ name m ds, searchFrom (lowerData name) = some (m, ds) → ds.length = 2 →
      extract_month_year name = (m, 2000 + digitsToNat ds)) ∧
    (∀ name m y, extract_month_year name = (m, y) → (m, y) ≠ (99, 9999) →
      y < 9999 ∨ (y = 9999 ∧ m < 99)) := by
  refine ⟨by decide, by decide, by decide, extract_month_year_bounds, ?_, ?_⟩
  · intro name m ds hs hds
    unfold extract_month_year
    rw [hs]
    simp [hds]
  · intro name m y hmy hne
    rcases extract_month_year_bounds name with hsent | ⟨h1, h12, h9999⟩
    · rw [hmy] at hsent
      exact absurd hsent hne
    · rw [hmy] at h1 h12 h9999
      simp only at h1 h12 h9999
      by_cases hy : y = 9999
      · exact Or.inr ⟨hy, by omega⟩
      · exact Or.inl (by omega)

/-- C3 witness: the two-digit normalisation clause applied to a
concrete match. -/
theorem extract_month_year_amended_witness :
    extract_month_year "Capesize Mar 26" = (3, 2000 + digitsToNat ['2', '6']) :=
  extract_month_year_amended.2.2.2.2.1 "Capesize Mar 26" 3 ['2', '6']
    (by decide) (by decide)

/-- C7 counterexample: a row missing both name columns is not rejected;
`sort_holdings` silently substitutes the empty string (line 110),
classifies the row as `other` with the sentinel date and returns it
normally — no data-validation fault exists in the code. -/
theorem missing_field_no_fault_cex :
    sort_holdings [(0, nonameRow)] "BDRY" = [nonameRow] ∧
    rowName nonameRow = "" ∧
    categorize_holding (rowName nonameRow) "BDRY" = ("other", 99) := by
  exact ⟨by decide, rfl, by decide⟩

/-- C7 amended: on a row with neither `SecurityName` nor `Name`,
`sort_holdings` silently coerces the name to the empty string, so the
row is categorised `other` (priority 99) with the sentinel date key
`(99, 9999, 99)` and processing continues; no fault identifying the row
and field is raised (the market value is never read at all). -/
theorem missing_field_silent_default (etf : String) (r : Row)
    (h1 : r.securityName = none) (h2 : r.name = none) :
    rowName r = "" ∧ categorize_holding (rowName r) etf = ("other", 99) ∧
    rowKey etf r = (99, 9999, 99) := by
  have hn : rowName r = "" := by simp [rowName, h1, h2]
  refine ⟨hn, ?_, ?_⟩
  · rw [hn]
    exact categorize_holding_empty etf
  · have hc : categorize_holding (rowName r) etf = ("other", 99) := by
      rw [hn]; exact categorize_holding_empty etf
    have he : extract_month_year (rowName r) = (99, 9999) := by
      rw [hn]; decide
    simp [rowKey, hc, he]

/-- C7 witness: the amended behaviour at a concrete nameless row. -/
theorem missing_field_silent_default_witness :
    rowName nonameRow = "" ∧
    categorize_holding (rowName nonameRow) "BWET" = ("other", 99) ∧
    rowKey "BWET" nonameRow = (99, 9999, 99) :=
  missing_field_silent_default "BWET" nonameRow rfl rfl

/-- C1 counterexample: on a table whose labels are a permutation of
`0..n-1` but not in positional order, the merge hands rows foreign keys,
and two rows with equal computed triples (`rowA`, `rowB`, input order A
then B) come out in the opposite order. -/
theorem sort_holdings_stability_cex :
    rowKey "BDRY" rowA = rowKey "BDRY" rowB ∧ rowA ≠ rowB ∧
    cexTable1.map Prod.snd = [rowA, rowB, rowC] ∧
    sort_holdings cexTable1 "BDRY" = [rowB, rowC, rowA] := by
  exact ⟨by decide, by decide, by decide, by decide⟩

/-- C1 amended: on every table whose index labels are exactly `0..n-1`
in positional order, `sort_holdings` is stable: for any key value, the
rows whose computed triple equals it appear in the output in exactly
their input order. -/
theorem sort_holdings_stable (df : Table) (etf : String)
    (h : df.map Prod.fst = List.range df.length) (k : Key) :
    (sort_holdings df etf).filter (fun row => decide (rowKey etf row = k)) =
      (df.map Prod.snd).filter (fun row => decide (rowKey etf row = k)) := by
  by_cases he : df.isEmpty
  · have hnil : df = [] := by
      cases df with
      | nil => rfl
      | cons a t => simp [List.isEmpty] at he
    subst hnil
    simp [sort_holdings]
  · have hM : mergedRows df etf = df.map (fun p => (p.2, some (rowKey etf p.2))) :=
      mergedRows_of_range df etf h
    have hform : ∀ x ∈ mergedRows df etf, x.2 = some (rowKey etf x.1) := by
      intro x hx
      rw [hM] at hx
      obtain ⟨p, hp, rfl⟩ := List.mem_map.mp hx
      rfl
    have hformS : ∀ x ∈ List.insertionSort rowLeR (mergedRows df etf),
        x.2 = some (rowKey etf x.1) := fun x hx =>
      hform x ((List.perm_insertionSort rowLeR (mergedRows df etf)).mem_iff.mp hx)
    have hcong : ∀ (l : List (Row × Option Key)),
        (∀ x ∈ l, x.2 = some (rowKey etf x.1)) →
          l.filter ((fun row => decide (rowKey etf row = k)) ∘ Prod.fst) =
            l.filter (fun x => decide (x.2 = some k)) := by
      intro l hl
      apply List.filter_congr
      intro x hx
      rw [Function.comp_apply, decide_eq_decide, hl x hx]
      simp
    unfold sort_holdings
    rw [if_neg he]
    rw [List.filter_map]
    rw [hcong _ hformS]
    rw [filter_insertionSort rowLeR (fun x => decide (x.2 = some k))
      (fun a b ha hb => rowLeR_of_key_eq (of_decide_eq_true ha) (of_decide_eq_true hb))]
    rw [← hcong _ hform]
    rw [← List.filter_map]
    rw [hM, List.map_map]
    rfl

/-- C1 witness: stability at a concrete range-labelled table and key. -/
theorem sort_holdings_stable_witness :
    (sort_holdings [(0, rowA), (1, rowB)] "BDRY").filter
        (fun row => decide (rowKey "BDRY" row = (1, 2026, 3))) =
      (([(0, rowA), (1, rowB)] : Table).map Prod.snd).filter
        (fun row => decide (rowKey "BDRY" row = (1, 2026, 3))) :=
  sort_holdings_stable [(0, rowA), (1, rowB)] "BDRY" (by decide) (1, 2026, 3)

/-- C2 counterexample: with a duplicated index label the left merge
duplicates the matched row and the output is no longer a permutation of
the input (length 3 versus 2, `rowP` twice, `rowQ`'s key missing). -/
theorem sort_holdings_perm_cex :
    cexTable2.length = 2 ∧
    sort_holdings cexTable2 "BDRY" = [rowP, rowP, rowQ] ∧
    (sort_holdings cexTable2 "BDRY").length = 3 := by
  exact ⟨by decide, by decide, by decide⟩

/-- C2 amended: for every input table with pairwise-distinct index
labels, `sort_holdings` returns a permutation of the input rows — equal
multiset, no row dropped or duplicated, identical length (the row type,
i.e. the column set, is unchanged by construction). -/
theorem sort_holdings_perm (df : Table) (etf : String)
    (h : (df.map Prod.fst).Nodup) :
    (↑(sort_holdings df etf) : Multiset Row) = (↑(df.map Prod.snd) : Multiset Row) ∧
    (sort_holdings df etf).length = df.length := by
  have hperm : (sort_holdings df etf).Perm (df.map Prod.snd) := by
    by_cases he : df.isEmpty
    · have hnil : df = [] := by
        cases df with
        | nil => rfl
        | cons a t => simp [List.isEmpty] at he
      subst hnil
      simp [sort_holdings]
    · unfold sort_holdings
      rw [if_neg he]
      have h1 := (List.perm_insertionSort rowLeR (mergedRows df etf)).map Prod.fst
      rw [mergedRows_map_fst_of_nodup df etf h] at h1
      exact h1
  refine ⟨Multiset.coe_eq_coe.mpr hperm, ?_⟩
  have hlen := hperm.length_eq
  simpa using hlen

/-- C2 witness: a distinct- but non-range-labelled table still comes
back as a permutation. -/
theorem sort_holdings_perm_witness :
    (↑(sort_holdings [(5, rowP), (3, rowQ)] "BDRY") : Multiset Row) =
      (↑(([(5, rowP), (3, rowQ)] : Table).map Prod.snd) : Multiset Row) ∧
    (sort_holdings [(5, rowP), (3, rowQ)] "BDRY").length =
      ([(5, rowP), (3, rowQ)] : Table).length :=
  sort_holdings_perm [(5, rowP), (3, rowQ)] "BDRY" (by decide)

/-- C9: the merge of `sort_holdings` pairs keys by matching the fresh
positional counter `0..n-1` against the per-row index labels collected
during iteration.  With labels exactly `0..n-1` in positional order,
every position receives exactly its own row's key; with any other
labelling, some position `i` has a row whose label is not `i`, and what
position `i` receives are exactly the keys of the rows whose *label* is
`i` — foreign rows, or nothing at all. -/
theorem merge_label_sensitivity (df : Table) (etf : String) :
    ((df.map Prod.fst = List.range df.length) →
      ∀ (i : Nat) (hi : i < df.length),
        matchesAt df etf i = [(i, rowKey etf (df.get ⟨i, hi⟩).2)]) ∧
    ((df.map Prod.fst ≠ List.range df.length) →
      ∃ (i : Nat) (hi : i < df.length),
        (df.get ⟨i, hi⟩).1 ≠ i ∧
        matchesAt df etf i =
          (df.filter (fun p => p.1 == i)).map (fun p => (i, rowKey etf p.2))) := by
  constructor
  · intro h i hi
    exact matchesAt_of_range df etf h hi
  · intro hne
    by_contra hc
    push_neg at hc
    refine hne (List.ext_get (by simp) ?_)
    intro n h1 h2
    rw [List.get_map, List.get_range]
    by_contra hlab
    exact hc n (by simpa using h1) hlab (matchesAt_eq df etf n)

/-- C9 witness: a one-row table keeping its foreign label `5` has a
position whose merge matches are not its own. -/
theorem merge_label_sensitivity_witness :
    ∃ (i : Nat) (hi : i < cexTable9.length),
      (cexTable9.get ⟨i, hi⟩).1 ≠ i ∧
      matchesAt cexTable9 "BDRY" i =
        (cexTable9.filter (fun p => p.1 == i)).map
          (fun p => (i, rowKey "BDRY" p.2)) :=
  (merge_label_sensitivity cexTable9 "BDRY").2 (by decide)

/-- C8: `sort_holdings` does not mutate its caller's table: the
invocation leaves the input table (its rows, length, and order) exactly
as it was — the pipeline works on a copy (`df.copy()`, line 126) — and
every row of the fresh output table is one of the input's own row
values. -/
theorem sort_holdings_no_mutation (s : CallState) (etf : String) :
    (invoke s etf).input = s.input ∧
    ∀ row ∈ ((invoke s etf).output.getD []), row ∈ s.input.map Prod.snd := by
  refine ⟨rfl, ?_⟩
  intro row hrow
  simp only [invoke, Option.getD_some] at hrow
  exact sort_holdings_mem_sub hrow

/-- C8 witness: the returned row of a concrete call is an input row. -/
theorem sort_holdings_no_mutation_witness :
    rowW ∈ cexTable9.map Prod.snd :=
  (sort_holdings_no_mutation ⟨cexTable9, none⟩ "BDRY").2 rowW (by decide)

end ETF
